import Mathlib

/-!
Shallow embedding of the probe-verus core: the code-name normalizer, the
atom data model, the merge engine (src/commands/merge_atoms.rs), the path
matcher (src/path_utils.rs) and the identity resolver
(src/commands/specify.rs).  BTreeMap values are modelled as association
lists kept in ascending key order (the map's iteration order), BTreeSet
values as sorted duplicate-free lists, and machine-size integers as Nat
(with the usize maximum made explicit where the code relies on it).
-/

/-- Modelled from the spec: `normalize_code_name` lives in the probe_verus
library crate, which is not among the provided sources.  Per the spec it is a
pure, total, idempotent function collapsing the known legacy formatting
variant — a spurious trailing punctuation character (a trailing dot, as in
the `"helper()."` to `"helper()"` example) — into the canonical form.  We
model it as removal of trailing dot characters. -/
def normalize_code_name (s : String) : String :=
  ⟨(s.data.reverse.dropWhile (fun c => c == '.')).reverse⟩

/-- Function mode tag (closed enumeration per the data model). -/
inductive FunctionMode
  | Exec
  | Spec
  | Proof
deriving DecidableEq

/-- Line span of an atom (`code_text` in atoms.json). -/
structure CodeTextInfo where
  lines_start : Nat
  lines_end : Nat
deriving DecidableEq

/-- Dependency reference paired with its call-site location.  Only the
`code_name` component is ever rewritten by the merge engine; the location
payload is carried through untouched, so its internal structure is modelled
as a plain string. -/
structure DependencyWithLocation where
  code_name : String
  location : String
deriving DecidableEq

/-- An atom as handled by the merge engine (the `AtomWithLines` struct of the
probe_verus library, with the exact field list used by merge_atoms.rs and its
unit tests). -/
structure AtomWithLines where
  display_name : String
  code_name : String
  dependencies : List String
  dependencies_with_locations : List DependencyWithLocation
  code_module : String
  code_path : String
  code_text : CodeTextInfo
  mode : FunctionMode
deriving DecidableEq

/-- Lexicographic comparison of character sequences; on well-formed UTF-8
this coincides with the bytewise Ord on Rust String that BTreeMap keys use. -/
def charListLt : List Char → List Char → Bool
  | [], [] => false
  | [], _ :: _ => true
  | _ :: _, [] => false
  | a :: as, b :: bs =>
    if a < b then true
    else if b < a then false
    else charListLt as bs

/-- The BTreeMap key order on strings. -/
def strLt (a b : String) : Bool :=
  charListLt a.data b.data

/-- BTreeMap get, on an association list in iteration order. -/
def mapGet {α : Type} (k : String) : List (String × α) → Option α
  | [] => none
  | p :: rest => if p.1 == k then some p.2 else mapGet k rest

/-- BTreeMap insert: place the binding at its ordered position, replacing an
existing binding of the same key. -/
def mapInsert {α : Type} (k : String) (v : α) : List (String × α) → List (String × α)
  | [] => [(k, v)]
  | p :: rest =>
    if strLt k p.1 then (k, v) :: p :: rest
    else if k == p.1 then (k, v) :: rest
    else p :: mapInsert k v rest

/-- The representation invariant of a BTreeMap image: keys strictly ascending. -/
def mapSorted {α : Type} (m : List (String × α)) : Prop :=
  List.Pairwise (fun p q => strLt p.1 q.1 = true) m

instance mapSortedDecidable {α : Type} (m : List (String × α)) : Decidable (mapSorted m) := by
  unfold mapSorted
  infer_instance

/-- Sorted-set insert, modelling BTreeSet insertion. -/
def setInsert (x : String) : List String → List String
  | [] => [x]
  | y :: ys =>
    if strLt x y then x :: y :: ys
    else if x == y then y :: ys
    else y :: setInsert x ys

/-- Collecting an iterator of strings into a BTreeSet. -/
def setCollect (l : List String) : List String :=
  l.foldl (fun acc x => setInsert x acc) []

/-- A stub is an atom with no source: empty code_path and zero-length span
(merge_atoms.rs, is_stub). -/
def is_stub (atom : AtomWithLines) : Bool :=
  atom.code_path == "" && atom.code_text.lines_start == 0 && atom.code_text.lines_end == 0

/-- Field rewriting done on one atom by normalize_atoms_map: set code_name to
the normalized key, normalize every dependency string (collected back into a
BTreeSet) and every dependencies_with_locations code_name. -/
def normalize_atom (atom : AtomWithLines) (norm_key : String) : AtomWithLines :=
  { atom with
    code_name := norm_key
    dependencies := setCollect (atom.dependencies.map normalize_code_name)
    dependencies_with_locations := atom.dependencies_with_locations.map
      (fun d => { d with code_name := normalize_code_name d.code_name }) }

/-- The loop of normalize_atoms_map (merge_atoms.rs lines 24-45): iterate the
input map in key order, count changed keys, and insert each rewritten atom
under its normalized key; on a collision the already-present entry is
replaced only when it is a stub and the incoming atom is real. -/
def normalize_atoms_aux (l : List (String × AtomWithLines))
    (acc : List (String × AtomWithLines)) (changed : Nat) :
    List (String × AtomWithLines) × Nat :=
  match l with
  | [] => (acc, changed)
  | (key, atom) :: rest =>
    let norm_key := normalize_code_name key
    let changed' := if norm_key != key then changed + 1 else changed
    let atom' := normalize_atom atom norm_key
    match mapGet norm_key acc with
    | some existing =>
      if is_stub existing && !is_stub atom' then
        normalize_atoms_aux rest (mapInsert norm_key atom' acc) changed'
      else
        normalize_atoms_aux rest acc changed'
    | none => normalize_atoms_aux rest (mapInsert norm_key atom' acc) changed'

/-- Normalize all keys and dependency references in an atoms map; returns
the normalized map and the count of keys that were changed
(merge_atoms.rs, normalize_atoms_map). -/
def normalize_atoms_map (atoms : List (String × AtomWithLines)) :
    List (String × AtomWithLines) × Nat :=
  normalize_atoms_aux atoms [] 0

/-- Merge result statistics (merge_atoms.rs, MergeStats). -/
structure MergeStats where
  total_atoms : Nat
  stubs_replaced : Nat
  stubs_remaining : Nat
  atoms_added : Nat
  keys_normalized : Nat
  conflicts : Nat
deriving DecidableEq

/-- The all-zero initial statistics record. -/
def initStats : MergeStats := ⟨0, 0, 0, 0, 0, 0⟩

/-- The merge state threaded through the Phase-2 fold: the accumulating base
map, the statistics, and the list of conflict warnings written to stderr,
modelled as (key, base code_path) pairs mirroring the eprintln arguments. -/
abbrev MergeState :=
  List (String × AtomWithLines) × MergeStats × List (String × String)

/-- One Phase-2 step (merge_atoms.rs lines 102-123): process a single
(key, incoming) pair of a normalized incoming map against the base. -/
def merge_step (acc : MergeState) (kv : String × AtomWithLines) : MergeState :=
  match mapGet kv.1 acc.1 with
  | some existing =>
    if is_stub existing && !is_stub kv.2 then
      (mapInsert kv.1 kv.2 acc.1,
        { acc.2.1 with stubs_replaced := acc.2.1.stubs_replaced + 1 }, acc.2.2)
    else if !is_stub existing && !is_stub kv.2 then
      (acc.1, { acc.2.1 with conflicts := acc.2.1.conflicts + 1 },
        acc.2.2 ++ [(kv.1, existing.code_path)])
    else
      acc
  | none =>
    (mapInsert kv.1 kv.2 acc.1,
      { acc.2.1 with atoms_added := acc.2.1.atoms_added + 1 }, acc.2.2)

/-- Process every pair of one incoming normalized map, in key order. -/
def merge_pairs (l : List (String × AtomWithLines)) (acc : MergeState) : MergeState :=
  match l with
  | [] => acc
  | kv :: rest => merge_pairs rest (merge_step acc kv)

/-- The outer fold of merge_atoms_maps over the subsequent maps: each one is
normalized (bumping keys_normalized) and then folded pair by pair. -/
def merge_fold (maps : List (List (String × AtomWithLines))) (acc : MergeState) :
    MergeState :=
  match maps with
  | [] => acc
  | m :: ms =>
    let n := normalize_atoms_map m
    merge_fold ms (merge_pairs n.1
      (acc.1, { acc.2.1 with keys_normalized := acc.2.1.keys_normalized + n.2 }, acc.2.2))

/-- Merge multiple atoms maps into one (merge_atoms.rs, merge_atoms_maps).
The first map (empty when absent) is normalized and becomes the base; every
subsequent map is normalized and folded in; finally stubs_remaining and
total_atoms are computed over the result.  The third component models the
stderr conflict warnings. -/
def merge_atoms_maps (maps : List (List (String × AtomWithLines))) : MergeState :=
  let n0 := normalize_atoms_map (maps.headD [])
  let r := merge_fold maps.tail
    (n0.1, { initStats with keys_normalized := n0.2 }, [])
  (r.1,
    { r.2.1 with
      stubs_remaining := (r.1.filter (fun p => is_stub p.2)).length
      total_atoms := r.1.length },
    r.2.2)

/-- Rust str ends_with, on character sequences. -/
def ends_with (s pat : String) : Bool :=
  pat.data.isSuffixOf s.data

/-- First index at which pat occurs as a contiguous subsequence (Rust
str::find on a literal pattern). -/
def find_sub (pat : List Char) : List Char → Option Nat
  | [] => if pat.isPrefixOf ([] : List Char) then some 0 else none
  | c :: rest =>
    if pat.isPrefixOf (c :: rest) then some 0
    else (find_sub pat rest).map (fun n => n + 1)

/-- Extract the "src/..." suffix from a path (path_utils.rs,
extract_src_suffix): everything from the first "/src/" occurrence onward,
skipping the leading slash; the input unchanged when no such segment. -/
def extract_src_suffix (path : String) : String :=
  match find_sub "/src/".data path.data with
  | some pos => ⟨path.data.drop (pos + 1)⟩
  | none => path

/-- Check if two paths match using suffix comparison: one ends with the
other (path_utils.rs, paths_match_by_suffix). -/
def paths_match_by_suffix (path1 path2 : String) : Bool :=
  ends_with path1 path2 || ends_with path2 path1

/-- Match score for path comparison (path_utils.rs, PathMatchScore). -/
inductive PathMatchScore
  | None
  | FilenameOnly
  | Suffix
  | Exact
deriving DecidableEq

/-- Splitting a character sequence at every occurrence of a separator. -/
def splitOnChar (sep : Char) : List Char → List (List Char)
  | [] => [[]]
  | c :: rest =>
    match splitOnChar sep rest with
    | [] => [[]]
    | h :: t => if c == sep then [] :: h :: t else (c :: h) :: t

/-- Components of a path after the normalization Rust's Path comparison
performs: split on the separator, drop empty segments and inner "."
segments, keep a root marker for absolute paths and a leading current-dir
marker. -/
def pathComponents (s : String) : List String :=
  let parts := ((splitOnChar '/' s.data).map (fun l => (⟨l⟩ : String))).filter
    (fun p => p != "" && p != ".")
  if s.data.head? == some '/' then "/" :: parts
  else if "./".data.isPrefixOf s.data || s == "." then "." :: parts
  else parts

/-- Rust Path::file_name: the last normalized component, unless it denotes
the root, the current or the parent directory. -/
def path_file_name (s : String) : Option String :=
  match (pathComponents s).getLast? with
  | some c => if c == "/" || c == "." || c == ".." then none else some c
  | none => none

/-- Calculate the match score between two paths (path_utils.rs,
calculate_path_match_score): exact Path equality, then raw suffix match,
then filename-only match, else none. -/
def calculate_path_match_score (query candidate : String) : PathMatchScore :=
  if pathComponents query == pathComponents candidate then PathMatchScore.Exact
  else if paths_match_by_suffix query candidate then PathMatchScore.Suffix
  else if path_file_name query == path_file_name candidate then PathMatchScore.FilenameOnly
  else PathMatchScore.None

/-- Modelled from the spec: LINE_TOLERANCE lives in probe_verus::constants,
which is not among the provided sources; the spec fixes it only as a small
fixed constant covering minor line-accounting differences between tools.
None of the verified claims depends on its exact value. -/
def LINE_TOLERANCE : Nat := 5

/-- The usize maximum value that initializes best_line_diff in
find_matching_atom. -/
def USIZE_MAX : Nat := 2 ^ 64 - 1

/-- The lines-start field of an atom entry as read by the specify command
(specify.rs, CodeText). -/
structure CodeText where
  lines_start : Nat
deriving DecidableEq

/-- Atom entry from atoms.json as read by the specify command (specify.rs,
AtomEntry): exactly the display name, path and start line. -/
structure AtomEntry where
  display_name : String
  code_path : String
  code_text : CodeText
deriving DecidableEq

/-- The span a parsed function carries (lines_start may precede the fn
keyword line because of doc comments and attributes). -/
structure SpecText where
  lines_start : Nat
  lines_end : Nat
deriving DecidableEq

/-- The fields of a parsed FunctionInfo record that find_matching_atom
reads: the bare name, the optional file path, the syntactic span and the
line of the fn keyword.  The remaining FunctionInfo fields (specification
and taxonomy payload) never influence identity resolution. -/
structure FunctionInfo where
  name : String
  file : Option String
  spec_text : SpecText
  fn_line : Nat
deriving DecidableEq

/-- Absolute distance between the fn keyword line and an atom's start line,
Rust: (fn_line as isize - atom_line as isize).unsigned_abs(). -/
def line_diff (fn_line atom_line : Nat) : Nat :=
  ((fn_line : Int) - (atom_line : Int)).natAbs

/-- The resolver's path predicate (specify.rs lines 229-232): raw suffix
match of the function path against the atom path, or equality of their
extracted src/ suffixes. -/
def resolver_path_matches (func_path : String) (atom : AtomEntry) : Bool :=
  paths_match_by_suffix func_path atom.code_path ||
    (extract_src_suffix func_path == extract_src_suffix atom.code_path)

/-- The resolver's name predicate (specify.rs lines 234-235): exact equality
or the atom display name ending in "::" followed by the function name. -/
def resolver_name_matches (func_name : String) (atom : AtomEntry) : Bool :=
  func_name == atom.display_name ||
    ends_with atom.display_name ("::" ++ func_name)

/-- The atom's start line falls within the function's syntactic span
(specify.rs lines 242-243). -/
def within_span (func : FunctionInfo) (atom : AtomEntry) : Bool :=
  decide (func.spec_text.lines_start ≤ atom.code_text.lines_start) &&
    decide (atom.code_text.lines_start ≤ func.spec_text.lines_end)

/-- The line distance is within tolerance (specify.rs line 246). -/
def within_tol (func : FunctionInfo) (atom : AtomEntry) : Bool :=
  decide (line_diff func.fn_line atom.code_text.lines_start ≤ LINE_TOLERANCE)

/-- The scanning loop of find_matching_atom (specify.rs lines 228-266),
carrying best_match and best_line_diff; a zero effective distance
short-circuits the scan.  The branch recomputing the distance when
within_span holds but within_tol does not is reproduced literally. -/
def find_matching_atom_go (func : FunctionInfo) (func_path : String) :
    List (String × AtomEntry) → Option String → Nat → Option String
  | [], best, _ => best
  | (code_name, atom) :: rest, best, best_line_diff =>
    if resolver_path_matches func_path atom && resolver_name_matches func.name atom then
      if within_span func atom || within_tol func atom then
        let effective_diff :=
          if within_span func atom && !within_tol func atom then
            line_diff func.fn_line atom.code_text.lines_start
          else
            line_diff func.fn_line atom.code_text.lines_start
        if effective_diff < best_line_diff then
          if effective_diff == 0 then some code_name
          else find_matching_atom_go func func_path rest (some code_name) effective_diff
        else find_matching_atom_go func func_path rest best best_line_diff
      else find_matching_atom_go func func_path rest best best_line_diff
    else find_matching_atom_go func func_path rest best best_line_diff

/-- Find the best matching atom for a function (specify.rs,
find_matching_atom): scan the atom map in ascending key order keeping the
candidate with the smallest effective line distance. -/
def find_matching_atom (func : FunctionInfo) (atoms : List (String × AtomEntry)) :
    Option String :=
  find_matching_atom_go func (func.file.getD "") atoms none USIZE_MAX

/-- The variant of the scanning loop with the tie-break distance simplified
to line_diff in every case (the claimed-equivalent form). -/
def find_matching_atom_go_simple (func : FunctionInfo) (func_path : String) :
    List (String × AtomEntry) → Option String → Nat → Option String
  | [], best, _ => best
  | (code_name, atom) :: rest, best, best_line_diff =>
    if resolver_path_matches func_path atom && resolver_name_matches func.name atom then
      if within_span func atom || within_tol func atom then
        let effective_diff := line_diff func.fn_line atom.code_text.lines_start
        if effective_diff < best_line_diff then
          if effective_diff == 0 then some code_name
          else find_matching_atom_go_simple func func_path rest (some code_name) effective_diff
        else find_matching_atom_go_simple func func_path rest best best_line_diff
      else find_matching_atom_go_simple func func_path rest best best_line_diff
    else find_matching_atom_go_simple func func_path rest best best_line_diff

/-- The resolver with the simplified tie-break distance. -/
def find_matching_atom_simple (func : FunctionInfo) (atoms : List (String × AtomEntry)) :
    Option String :=
  find_matching_atom_go_simple func (func.file.getD "") atoms none USIZE_MAX

/-- All three resolver predicates at once: a candidate atom. -/
def atom_candidate (func : FunctionInfo) (atom : AtomEntry) : Bool :=
  (resolver_path_matches (func.file.getD "") atom &&
    resolver_name_matches func.name atom) &&
  (within_span func atom || within_tol func atom)

/-- Reference selection: among the candidate atoms, the first one (in list
order, that is ascending key order) attaining the minimal line distance,
together with that distance. -/
def resolve_spec (func : FunctionInfo) :
    List (String × AtomEntry) → Option (String × Nat)
  | [] => none
  | (k, a) :: rest =>
    let r := resolve_spec func rest
    if atom_candidate func a then
      match r with
      | none => some (k, line_diff func.fn_line a.code_text.lines_start)
      | some (k', d') =>
        if line_diff func.fn_line a.code_text.lines_start ≤ d' then
          some (k, line_diff func.fn_line a.code_text.lines_start)
        else some (k', d')
    else r

/-- The per-key effect of folding one incoming map entry set into a base:
an absent base entry takes the incoming atom, and a present one is replaced
exactly when the base entry is a stub and the incoming atom is real. -/
def mergeCombine (b i : Option AtomWithLines) : Option AtomWithLines :=
  match b, i with
  | b, none => b
  | none, some a => some a
  | some e, some a => if is_stub e && !is_stub a then some a else some e

/-- The entry surviving a Phase-1 collision sequence: the first real atom in
encounter order, or the first atom when every one is a stub. -/
def first_real_else_first (l : List AtomWithLines) : Option AtomWithLines :=
  match l.find? (fun a => !is_stub a) with
  | some a => some a
  | none => l.head?

/-- The normalized atoms of the entries of m whose key normalizes to k, in
m's own iteration order. -/
def normEntries (m : List (String × AtomWithLines)) (k : String) :
    List AtomWithLines :=
  (m.filter (fun p => normalize_code_name p.1 == k)).map
    (fun p => normalize_atom p.2 (normalize_code_name p.1))

/-- Some input map supplies a real (non-stub) entry under a key normalizing
to k. -/
def suppliedReal (maps : List (List (String × AtomWithLines))) (k : String) : Prop :=
  ∃ m ∈ maps, ∃ p ∈ m, normalize_code_name p.1 = k ∧ is_stub p.2 = false

/-- An optional atom that is present and real. -/
def optReal (o : Option AtomWithLines) : Bool :=
  match o with
  | some a => !is_stub a
  | none => false

/-- The concrete tie-break scenario of the spec: two "add" methods on
different types in one file, atoms at lines 100 and 200. -/
def c3_atoms : List (String × AtomEntry) :=
  [("probe:edwards/EdwardsPoint#Add#add()",
      ⟨"EdwardsPoint::add", "src/edwards.rs", ⟨100⟩⟩),
   ("probe:edwards/RistrettoPoint#Add#add()",
      ⟨"RistrettoPoint::add", "src/edwards.rs", ⟨200⟩⟩)]

/-- A parsed "add" function at fn_line 100. -/
def c3_func100 : FunctionInfo := ⟨"add", some "src/edwards.rs", ⟨98, 110⟩, 100⟩

/-- A parsed "add" function at fn_line 200. -/
def c3_func200 : FunctionInfo := ⟨"add", some "src/edwards.rs", ⟨198, 220⟩, 200⟩

/-- A real atom used in concrete merge scenarios. -/
def c2w_real : AtomWithLines :=
  ⟨"f", "k", [], [], "", "src/a.rs", ⟨1, 2⟩, FunctionMode.Exec⟩

/-- A second, different real atom under the same key. -/
def c2w_real2 : AtomWithLines :=
  ⟨"g", "k", [], [], "", "src/b.rs", ⟨3, 4⟩, FunctionMode.Exec⟩

/-- A stub atom under the same key. -/
def c2w_stub : AtomWithLines :=
  ⟨"f", "k", [], [], "", "", ⟨0, 0⟩, FunctionMode.Exec⟩

/-- A real atom stored under the already-canonical key "a". -/
def c1_atomA : AtomWithLines :=
  ⟨"f", "a", [], [], "", "pa", ⟨1, 2⟩, FunctionMode.Exec⟩

/-- A different real atom stored under the legacy key "a." that normalizes
to "a" as well. -/
def c1_atomB : AtomWithLines :=
  ⟨"f", "a.", [], [], "", "pb", ⟨3, 4⟩, FunctionMode.Exec⟩

/-- A single map holding two real entries whose keys collide after
normalization; iteration order is "a" before "a.". -/
def c1_map : List (String × AtomWithLines) :=
  [("a", c1_atomA), ("a.", c1_atomB)]

/-- A stub for key "k" carrying display name "x". -/
def c4_stubX : AtomWithLines :=
  ⟨"x", "k", [], [], "", "", ⟨0, 0⟩, FunctionMode.Exec⟩

/-- A different stub for the same key "k", carrying display name "y". -/
def c4_stubY : AtomWithLines :=
  ⟨"y", "k", [], [], "", "", ⟨0, 0⟩, FunctionMode.Exec⟩

theorem go_resolve (func : FunctionInfo) :
    ∀ (l : List (String × AtomEntry)) (best : Option String) (bd : Nat),
      find_matching_atom_go func (func.file.getD "") l best bd =
        (match resolve_spec func l with
          | none => best
          | some kd => if kd.2 < bd then some kd.1 else best) := by
  intro l
  induction l with
  | nil => intro best bd; rfl
  | cons p rest ih =>
    intro best bd
    obtain ⟨k, a⟩ := p
    simp only [find_matching_atom_go, resolve_spec, ite_self, atom_candidate]
    by_cases hpm :
      (resolver_path_matches (func.file.getD "") a && resolver_name_matches func.name a) = true
    case neg =>
      have hC : ¬ ((resolver_path_matches (func.file.getD "") a &&
          resolver_name_matches func.name a) &&
          (within_span func a || within_tol func a)) = true := by
        intro h
        exact hpm (Bool.and_eq_true _ _ |>.mp h).1
      rw [if_neg hpm, if_neg hC]
      exact ih best bd
    case pos =>
      by_cases hline : (within_span func a || within_tol func a) = true
      case neg =>
        have hC : ¬ ((resolver_path_matches (func.file.getD "") a &&
            resolver_name_matches func.name a) &&
            (within_span func a || within_tol func a)) = true := by
          intro h
          exact hline (Bool.and_eq_true _ _ |>.mp h).2
        rw [if_pos hpm, if_neg hline, if_neg hC]
        exact ih best bd
      case pos =>
        have hC : ((resolver_path_matches (func.file.getD "") a &&
            resolver_name_matches func.name a) &&
            (within_span func a || within_tol func a)) = true := by
          rw [hpm, hline]
          rfl
        rw [if_pos hpm, if_pos hline, if_pos hC]
        by_cases hlt : line_diff func.fn_line a.code_text.lines_start < bd
        · by_cases h0 : line_diff func.fn_line a.code_text.lines_start = 0
          · rcases hr : resolve_spec func rest with _ | ⟨k', d'⟩
            · simp [hr, h0, hlt, h0 ▸ hlt]
            · have h0' : (0 : Nat) ≤ d' := Nat.zero_le d'
              simp [hr, h0, hlt, h0', h0 ▸ hlt]
          · rcases hr : resolve_spec func rest with _ | ⟨k', d'⟩
            · simp [hr, h0, hlt, ih]
            · by_cases hdd : line_diff func.fn_line a.code_text.lines_start ≤ d'
              · have hnd : ¬ d' < line_diff func.fn_line a.code_text.lines_start :=
                  Nat.not_lt.mpr hdd
                simp [hr, h0, hlt, hdd, hnd, ih]
              · have hd' : d' < line_diff func.fn_line a.code_text.lines_start :=
                  Nat.not_le.mp hdd
                have hbd' : d' < bd := Nat.lt_trans hd' hlt
                simp [hr, h0, hlt, hdd, hd', hbd', ih]
        · rcases hr : resolve_spec func rest with _ | ⟨k', d'⟩
          · simp [hr, hlt, ih]
          · by_cases hdd : line_diff func.fn_line a.code_text.lines_start ≤ d'
            · have h1 : ¬ d' < bd := by omega
              simp [hr, hlt, hdd, h1, ih]
            · simp [hr, hlt, hdd, ih]

theorem resolve_spec_mem (func : FunctionInfo) :
    ∀ (l : List (String × AtomEntry)) (k : String) (d : Nat),
      resolve_spec func l = some (k, d) →
      ∃ p ∈ l, d = line_diff func.fn_line p.2.code_text.lines_start := by
  intro l
  induction l with
  | nil => intro k d h; simp [resolve_spec] at h
  | cons p rest ih =>
    intro k d h
    obtain ⟨k0, a0⟩ := p
    simp only [resolve_spec] at h
    by_cases hc : atom_candidate func a0 = true
    · simp only [hc, if_true] at h
      rcases hr : resolve_spec func rest with _ | ⟨k', d'⟩
      · rw [hr] at h
        simp only [Option.some.injEq, Prod.mk.injEq] at h
        exact ⟨(k0, a0), List.mem_cons_self _ _, h.2.symm⟩
      · rw [hr] at h
        by_cases hdd : line_diff func.fn_line a0.code_text.lines_start ≤ d'
        · simp only [hdd, if_true, Option.some.injEq, Prod.mk.injEq] at h
          exact ⟨(k0, a0), List.mem_cons_self _ _, h.2.symm⟩
        · simp only [hdd, if_false, Option.some.injEq, Prod.mk.injEq] at h
          obtain ⟨q, hq, hd⟩ := ih k' d' hr
          exact ⟨q, List.mem_cons_of_mem _ hq, h.2 ▸ hd⟩
    · simp only [Bool.not_eq_true] at hc
      simp only [hc, Bool.false_eq_true, if_false] at h
      obtain ⟨q, hq, hd⟩ := ih k d h
      exact ⟨q, List.mem_cons_of_mem _ hq, hd⟩

theorem resolve_spec_none_of (func : FunctionInfo) :
    ∀ (l : List (String × AtomEntry)),
      (∀ p ∈ l, atom_candidate func p.2 = false) → resolve_spec func l = none := by
  intro l
  induction l with
  | nil => intro _; rfl
  | cons p rest ih =>
    intro h
    obtain ⟨k0, a0⟩ := p
    have hc := h (k0, a0) (List.mem_cons_self _ _)
    simp only [resolve_spec, hc, Bool.false_eq_true, if_false]
    exact ih (fun q hq => h q (List.mem_cons_of_mem _ hq))

/-- C3: on a sorted atom map whose candidate distances stay below the usize
maximum, the resolver returns the first candidate (in ascending key order)
minimizing the distance between fn_line and the atom's start line, returns
none when no atom satisfies all three predicates, and resolves the spec's
two-atoms-at-100-and-200 scenario to the 100 atom for a function at line
100 and to the 200 atom for a function at line 200. -/
theorem c3_resolver_first_minimum :
    (∀ (func : FunctionInfo) (atoms : List (String × AtomEntry)),
      mapSorted atoms →
      (∀ p ∈ atoms, line_diff func.fn_line p.2.code_text.lines_start < USIZE_MAX) →
      find_matching_atom func atoms = (resolve_spec func atoms).map Prod.fst) ∧
    (∀ (func : FunctionInfo) (atoms : List (String × AtomEntry)),
      (∀ p ∈ atoms, atom_candidate func p.2 = false) →
      find_matching_atom func atoms = none) ∧
    find_matching_atom c3_func100 c3_atoms = some "probe:edwards/EdwardsPoint#Add#add()" ∧
    find_matching_atom c3_func200 c3_atoms = some "probe:edwards/RistrettoPoint#Add#add()" := by
  refine ⟨?_, ?_, by decide, by decide⟩
  · intro func atoms _ hbound
    have h := go_resolve func atoms none USIZE_MAX
    rw [find_matching_atom, h]
    rcases hr : resolve_spec func atoms with _ | ⟨k, d⟩
    · rfl
    · obtain ⟨p, hp, hd⟩ := resolve_spec_mem func atoms k d hr
      have : d < USIZE_MAX := hd ▸ hbound p hp
      simp [this]
  · intro func atoms h
    have hnone := resolve_spec_none_of func atoms h
    have hgo := go_resolve func atoms none USIZE_MAX
    rw [find_matching_atom, hgo, hnone]

theorem c3_witness :
    mapSorted c3_atoms ∧
    (∀ p ∈ c3_atoms, line_diff c3_func100.fn_line p.2.code_text.lines_start < USIZE_MAX) ∧
    find_matching_atom c3_func100 c3_atoms = (resolve_spec c3_func100 c3_atoms).map Prod.fst :=
  ⟨by decide, by decide,
    c3_resolver_first_minimum.1 c3_func100 c3_atoms (by decide) (by decide)⟩

theorem dropWhile_self {α : Type} (p : α → Bool) (l : List α) :
    List.dropWhile p (List.dropWhile p l) = List.dropWhile p l := by
  induction l with
  | nil => rfl
  | cons c l ih =>
    by_cases h : p c = true
    · simp [List.dropWhile_cons, h, ih]
    · simp [List.dropWhile_cons, h]

theorem string_mk_data (l : List Char) : (⟨l⟩ : String).data = l := rfl

theorem ends_with_empty (s : String) : ends_with s "" = true := by
  have h : "".data = ([] : List Char) := rfl
  simp [ends_with, h]

/-- C9: the Code-Name Normalizer is idempotent: for every identifier string
x, normalize(normalize(x)) equals normalize(x). -/
theorem c9_normalizer_idempotent (x : String) :
    normalize_code_name (normalize_code_name x) = normalize_code_name x := by
  simp [normalize_code_name, string_mk_data, List.reverse_reverse, dropWhile_self]

/-- C8: path suffix matching is raw string suffix testing with no
path-segment awareness: the path "xsrc/lib" suffix-matches "src/lib" across
a component boundary, and calculate_path_match_score scores the pair
Suffix. -/
theorem c8_suffix_crosses_component_boundary :
    paths_match_by_suffix "xsrc/lib" "src/lib" = true ∧
      calculate_path_match_score "xsrc/lib" "src/lib" = PathMatchScore.Suffix := by
  constructor
  · decide
  · decide

/-- C10: every string ends with the empty string, so paths_match_by_suffix
p "" is true for every p; consequently a FunctionInfo with an absent file
satisfies the resolver's path predicate against every atom. -/
theorem c10_empty_path_matches_everything :
    (∀ p : String, paths_match_by_suffix p "" = true) ∧
      (∀ (func : FunctionInfo) (atom : AtomEntry), func.file = none →
        resolver_path_matches (func.file.getD "") atom = true) := by
  constructor
  · intro p
    simp [paths_match_by_suffix, ends_with_empty]
  · intro func atom h
    simp only [h, Option.getD_none, resolver_path_matches, paths_match_by_suffix,
      ends_with_empty, Bool.or_true, Bool.true_or]

theorem c10_witness :
    paths_match_by_suffix "any/path" "" = true ∧
      resolver_path_matches
        ((⟨"f", none, ⟨1, 2⟩, 1⟩ : FunctionInfo).file.getD "")
        ⟨"d", "some/path.rs", ⟨3⟩⟩ = true :=
  ⟨c10_empty_path_matches_everything.1 "any/path",
    c10_empty_path_matches_everything.2 ⟨"f", none, ⟨1, 2⟩, 1⟩ ⟨"d", "some/path.rs", ⟨3⟩⟩ rfl⟩

theorem go_eq_go_simple (func : FunctionInfo) (fp : String) :
    ∀ (l : List (String × AtomEntry)) (best : Option String) (bd : Nat),
      find_matching_atom_go func fp l best bd =
        find_matching_atom_go_simple func fp l best bd := by
  intro l
  induction l with
  | nil => intro best bd; rfl
  | cons p rest ih =>
    intro best bd
    obtain ⟨cn, atom⟩ := p
    simp only [find_matching_atom_go, find_matching_atom_go_simple, ite_self]
    split
    · split
      · split
        · split
          · rfl
          · exact ih _ _
        · exact ih _ _
      · exact ih _ _
    · exact ih _ _

/-- C7: the tie-break distance recomputed on the within-span branch is the
same expression as line_diff, so the resolver is extensionally equal to the
simplified version that always uses the absolute distance between fn_line
and the atom's start line. -/
theorem c7_effective_diff_redundant (func : FunctionInfo)
    (atoms : List (String × AtomEntry)) :
    find_matching_atom func atoms = find_matching_atom_simple func atoms :=
  go_eq_go_simple func (func.file.getD "") atoms none USIZE_MAX

/-- C2: each Phase-2 fold step processes one (key, incoming) pair as the
spec's decision table prescribes: missing key inserts and counts
atoms_added; stub base with real incoming replaces and counts
stubs_replaced; real base with real incoming keeps the base, emits the
conflict warning naming the key and the base source, and counts conflicts;
a stub incoming never overwrites an existing entry. -/
theorem c2_fold_step_cases :
    (∀ (acc : MergeState) (kv : String × AtomWithLines) rest,
      merge_pairs (kv :: rest) acc = merge_pairs rest (merge_step acc kv)) ∧
    (∀ base stats w k (a : AtomWithLines), mapGet k base = none →
      merge_step (base, stats, w) (k, a) =
        (mapInsert k a base, { stats with atoms_added := stats.atoms_added + 1 }, w)) ∧
    (∀ base stats w k (a e : AtomWithLines), mapGet k base = some e →
      is_stub e = true → is_stub a = false →
      merge_step (base, stats, w) (k, a) =
        (mapInsert k a base, { stats with stubs_replaced := stats.stubs_replaced + 1 }, w)) ∧
    (∀ base stats w k (a e : AtomWithLines), mapGet k base = some e →
      is_stub e = false → is_stub a = false →
      merge_step (base, stats, w) (k, a) =
        (base, { stats with conflicts := stats.conflicts + 1 },
          w ++ [(k, e.code_path)])) ∧
    (∀ base stats w k (a e : AtomWithLines), mapGet k base = some e →
      is_stub a = true →
      merge_step (base, stats, w) (k, a) = (base, stats, w)) := by
  refine ⟨fun acc kv rest => rfl, ?_, ?_, ?_, ?_⟩
  · intro base stats w k a h
    simp [merge_step, h]
  · intro base stats w k a e h he ha
    simp [merge_step, h, he, ha]
  · intro base stats w k a e h he ha
    simp [merge_step, h, he, ha]
  · intro base stats w k a e h ha
    simp [merge_step, h, ha]

theorem c2_witness :
    merge_step ([], initStats, []) ("k", c2w_real) =
      ([("k", c2w_real)], { initStats with atoms_added := 1 }, []) ∧
    merge_step ([("k", c2w_stub)], initStats, []) ("k", c2w_real) =
      ([("k", c2w_real)], { initStats with stubs_replaced := 1 }, []) ∧
    merge_step ([("k", c2w_real)], initStats, []) ("k", c2w_real2) =
      ([("k", c2w_real)], { initStats with conflicts := 1 }, [("k", "src/a.rs")]) ∧
    merge_step ([("k", c2w_real)], initStats, []) ("k", c2w_stub) =
      ([("k", c2w_real)], initStats, []) := by
  refine ⟨?_, ?_, ?_, ?_⟩
  · exact (c2_fold_step_cases.2.1 [] initStats [] "k" c2w_real (by decide)).trans (by decide)
  · exact (c2_fold_step_cases.2.2.1 [("k", c2w_stub)] initStats [] "k" c2w_real c2w_stub
      (by decide) (by decide) (by decide)).trans (by decide)
  · exact (c2_fold_step_cases.2.2.2.1 [("k", c2w_real)] initStats [] "k" c2w_real2 c2w_real
      (by decide) (by decide) (by decide)).trans (by decide)
  · exact c2_fold_step_cases.2.2.2.2 [("k", c2w_real)] initStats [] "k" c2w_stub c2w_real
      (by decide) (by decide)

theorem bool_eq_false {b : Bool} (h : ¬ b = true) : b = false := by
  cases b
  · rfl
  · exact absurd rfl h

theorem charListLt_irrefl : ∀ l : List Char, charListLt l l = false := by
  intro l
  induction l with
  | nil => rfl
  | cons a as ih => simp [charListLt, lt_irrefl, ih]

theorem charListLt_trans :
    ∀ l1 l2 l3 : List Char, charListLt l1 l2 = true → charListLt l2 l3 = true →
      charListLt l1 l3 = true := by
  intro l1
  induction l1 with
  | nil =>
    intro l2 l3 h1 h2
    cases l2 with
    | nil => exact absurd h1 (by simp [charListLt])
    | cons b bs =>
      cases l3 with
      | nil => exact absurd h2 (by simp [charListLt])
      | cons c cs => rfl
  | cons a as ih =>
    intro l2 l3 h1 h2
    cases l2 with
    | nil => exact absurd h1 (by simp [charListLt])
    | cons b bs =>
      cases l3 with
      | nil => exact absurd h2 (by simp [charListLt])
      | cons c cs =>
        simp only [charListLt] at h1 h2 ⊢
        by_cases hab : a < b
        · by_cases hbc : b < c
          · simp [lt_trans hab hbc]
          · by_cases hcb : c < b
            · simp [hbc, hcb] at h2
            · have hbec : b = c := le_antisymm (not_lt.mp hcb) (not_lt.mp hbc)
              subst hbec
              simp [hab]
        · by_cases hba : b < a
          · simp [hab, hba] at h1
          · have haeb : a = b := le_antisymm (not_lt.mp hba) (not_lt.mp hab)
            subst haeb
            simp only [lt_irrefl, if_false] at h1
            by_cases hac : a < c
            · simp [hac]
            · by_cases hca : c < a
              · simp [hac, hca] at h2
              · have haec : a = c := le_antisymm (not_lt.mp hca) (not_lt.mp hac)
                subst haec
                simp only [lt_irrefl, if_false] at h2 ⊢
                exact ih bs cs h1 h2

theorem charListLt_eq_of_not_lt :
    ∀ l1 l2 : List Char, charListLt l1 l2 = false → charListLt l2 l1 = false →
      l1 = l2 := by
  intro l1
  induction l1 with
  | nil =>
    intro l2 h1 _
    cases l2 with
    | nil => rfl
    | cons b bs => exact absurd h1 (by simp [charListLt])
  | cons a as ih =>
    intro l2 h1 h2
    cases l2 with
    | nil => exact absurd h2 (by simp [charListLt])
    | cons b bs =>
      simp only [charListLt] at h1 h2
      by_cases hab : a < b
      · simp [hab] at h1
      · by_cases hba : b < a
        · simp [hab, hba] at h2
        · have haeb : a = b := le_antisymm (not_lt.mp hba) (not_lt.mp hab)
          subst haeb
          simp only [lt_irrefl, if_false] at h1 h2
          rw [ih bs h1 h2]

theorem strLt_irrefl (a : String) : strLt a a = false :=
  charListLt_irrefl a.data

theorem strLt_trans {a b c : String} (h1 : strLt a b = true) (h2 : strLt b c = true) :
    strLt a c = true :=
  charListLt_trans a.data b.data c.data h1 h2

theorem strLt_eq_of_not_lt {a b : String} (h1 : strLt a b = false)
    (h2 : strLt b a = false) : a = b := by
  have h := charListLt_eq_of_not_lt a.data b.data h1 h2
  cases a with
  | mk da =>
    cases b with
    | mk db =>
      simp only [String.data] at h
      rw [h]

theorem strLt_ne {a b : String} (h : strLt a b = true) : a ≠ b := by
  intro he
  subst he
  rw [strLt_irrefl] at h
  exact absurd h (by simp)

theorem strLt_total_of_ne {a b : String} (hne : a ≠ b) (h : strLt a b = false) :
    strLt b a = true := by
  by_contra hc
  exact hne (strLt_eq_of_not_lt h (bool_eq_false hc))

theorem mapGet_mapInsert {α : Type} (q k : String) (v : α) :
    ∀ l, mapGet q (mapInsert k v l) = if q = k then some v else mapGet q l := by
  intro l
  induction l with
  | nil =>
    by_cases h : q = k
    · subst h
      simp [mapInsert, mapGet]
    · have h' : k ≠ q := fun hh => h hh.symm
      simp [mapInsert, mapGet, h, h']
  | cons p rest ih =>
    obtain ⟨pk, pv⟩ := p
    by_cases h1 : strLt k pk = true
    · simp only [mapInsert, h1, if_true]
      by_cases h : q = k
      · subst h
        simp [mapGet]
      · have h' : k ≠ q := fun hh => h hh.symm
        simp [mapGet, h, h']
    · have h1' : strLt k pk = false := bool_eq_false h1
      by_cases h2 : k = pk
      · subst h2
        simp only [mapInsert, h1', Bool.false_eq_true, if_false, beq_self_eq_true, if_true]
        by_cases h : q = k
        · subst h
          simp [mapGet]
        · have h' : k ≠ q := fun hh => h hh.symm
          simp [mapGet, h, h']
      · have h2' : (k == pk) = false := by simp [h2]
        simp only [mapInsert, h1', Bool.false_eq_true, if_false, h2']
        by_cases h : q = k
        · subst h
          have hpk : (pk == q) = false := by
            rw [beq_eq_false_iff_ne]
            exact fun hh => h2 hh.symm
          simp [mapGet, hpk, ih]
        · by_cases hpq : pk = q
          · subst hpq
            simp [mapGet, h]
          · have hpk : (pk == q) = false := by simp [hpq]
            simp [mapGet, hpk, ih, h]

theorem mem_mapInsert {α : Type} (k : String) (v : α) :
    ∀ l q, q ∈ mapInsert k v l → q.1 = k ∨ q ∈ l := by
  intro l
  induction l with
  | nil =>
    intro q hq
    simp only [mapInsert, List.mem_singleton] at hq
    exact Or.inl (by rw [hq])
  | cons p rest ih =>
    intro q hq
    obtain ⟨pk, pv⟩ := p
    by_cases h1 : strLt k pk = true
    · simp only [mapInsert, h1, if_true, List.mem_cons] at hq
      rcases hq with rfl | hq'
      · exact Or.inl rfl
      · exact Or.inr (List.mem_cons.mpr hq')
    · have h1' : strLt k pk = false := bool_eq_false h1
      by_cases h2 : k = pk
      · subst h2
        simp only [mapInsert, h1', Bool.false_eq_true, if_false, beq_self_eq_true, if_true,
          List.mem_cons] at hq
        rcases hq with rfl | hq'
        · exact Or.inl rfl
        · exact Or.inr (List.mem_cons_of_mem _ hq')
      · have h2' : (k == pk) = false := by simp [h2]
        simp only [mapInsert, h1', Bool.false_eq_true, if_false, h2', List.mem_cons] at hq
        rcases hq with rfl | hq'
        · exact Or.inr (List.mem_cons_self _ _)
        · rcases ih q hq' with hk | hmem
          · exact Or.inl hk
          · exact Or.inr (List.mem_cons_of_mem _ hmem)

theorem mapInsert_sorted {α : Type} (k : String) (v : α) :
    ∀ l, mapSorted l → mapSorted (mapInsert k v l) := by
  intro l
  induction l with
  | nil =>
    intro _
    exact List.pairwise_singleton _ _
  | cons p rest ih =>
    intro hs
    obtain ⟨pk, pv⟩ := p
    have hs' := hs
    rw [mapSorted, List.pairwise_cons] at hs'
    obtain ⟨hhead, htail⟩ := hs'
    by_cases h1 : strLt k pk = true
    · simp only [mapInsert, h1, if_true]
      rw [mapSorted, List.pairwise_cons]
      refine ⟨?_, hs⟩
      intro q hq
      rcases List.mem_cons.mp hq with rfl | hq'
      · exact h1
      · exact strLt_trans h1 (hhead q hq')
    · have h1' : strLt k pk = false := bool_eq_false h1
      by_cases h2 : k = pk
      · subst h2
        simp only [mapInsert, h1', Bool.false_eq_true, if_false, beq_self_eq_true, if_true]
        rw [mapSorted, List.pairwise_cons]
        exact ⟨hhead, htail⟩
      · have h2' : (k == pk) = false := by simp [h2]
        simp only [mapInsert, h1', Bool.false_eq_true, if_false, h2']
        rw [mapSorted, List.pairwise_cons]
        constructor
        · intro q hq
          rcases mem_mapInsert k v rest q hq with hk | hmem
          · rw [hk]
            exact strLt_total_of_ne h2 h1'
          · exact hhead q hmem
        · exact ih htail

theorem mapGet_eq_none {α : Type} (k : String) :
    ∀ l : List (String × α), mapGet k l = none ↔ ∀ p ∈ l, p.1 ≠ k := by
  intro l
  induction l with
  | nil => simp [mapGet]
  | cons p rest ih =>
    obtain ⟨pk, pv⟩ := p
    by_cases h : pk = k
    · subst h
      simp [mapGet, ih]
    · have h' : (pk == k) = false := by simp [h]
      simp [mapGet, h', ih, h]

theorem length_mapInsert_none {α : Type} (k : String) (v : α) :
    ∀ l, mapGet k l = none → (mapInsert k v l).length = l.length + 1 := by
  intro l
  induction l with
  | nil => intro _; rfl
  | cons p rest ih =>
    intro h
    obtain ⟨pk, pv⟩ := p
    have hne : pk ≠ k := ((mapGet_eq_none k _).mp h) (pk, pv) (List.mem_cons_self _ _)
    have hrest : mapGet k rest = none := by
      rw [mapGet_eq_none]
      intro q hq
      exact ((mapGet_eq_none k _).mp h) q (List.mem_cons_of_mem _ hq)
    by_cases h1 : strLt k pk = true
    · simp [mapInsert, h1]
    · have h1' : strLt k pk = false := bool_eq_false h1
      have h2' : (k == pk) = false := by
        rw [beq_eq_false_iff_ne]
        exact fun hh => hne hh.symm
      simp [mapInsert, h1', h2', ih hrest]

theorem length_mapInsert_some {α : Type} (k : String) (v : α) :
    ∀ l, mapSorted l → (mapGet k l).isSome → (mapInsert k v l).length = l.length := by
  intro l
  induction l with
  | nil =>
    intro _ hsome
    simp [mapGet] at hsome
  | cons p rest ih =>
    intro hs hsome
    obtain ⟨pk, pv⟩ := p
    rw [mapSorted, List.pairwise_cons] at hs
    obtain ⟨hhead, htail⟩ := hs
    by_cases h1 : strLt k pk = true
    · exfalso
      have hnone : mapGet k ((pk, pv) :: rest) = none := by
        rw [mapGet_eq_none]
        intro q hq
        rcases List.mem_cons.mp hq with rfl | hq'
        · exact Ne.symm (strLt_ne h1)
        · exact Ne.symm (strLt_ne (strLt_trans h1 (hhead q hq')))
      rw [hnone] at hsome
      simp at hsome
    · have h1' : strLt k pk = false := bool_eq_false h1
      by_cases h2 : k = pk
      · subst h2
        simp [mapInsert, h1', beq_self_eq_true]
      · have h2' : (k == pk) = false := by simp [h2]
        have hpk : (pk == k) = false := by
          rw [beq_eq_false_iff_ne]
          exact fun hh => h2 hh.symm
        have hsome' : (mapGet k rest).isSome := by
          simpa [mapGet, hpk] using hsome
        simp [mapInsert, h1', h2', ih htail hsome']

theorem mapExt {α : Type} :
    ∀ (l1 l2 : List (String × α)), mapSorted l1 → mapSorted l2 →
      (∀ k, mapGet k l1 = mapGet k l2) → l1 = l2 := by
  intro l1
  induction l1 with
  | nil =>
    intro l2 _ _ h
    cases l2 with
    | nil => rfl
    | cons q t2 =>
      have h1 := h q.1
      simp [mapGet] at h1
  | cons p t1 ih =>
    intro l2 hs1 hs2 h
    obtain ⟨pk, pv⟩ := p
    cases l2 with
    | nil =>
      have h1 := h pk
      simp [mapGet] at h1
    | cons q t2 =>
      obtain ⟨qk, qv⟩ := q
      rw [mapSorted, List.pairwise_cons] at hs1 hs2
      by_cases hlt : strLt pk qk = true
      · exfalso
        have hnone : mapGet pk ((qk, qv) :: t2) = none := by
          rw [mapGet_eq_none]
          intro r hr
          rcases List.mem_cons.mp hr with rfl | hr'
          · exact Ne.symm (strLt_ne hlt)
          · exact Ne.symm (strLt_ne (strLt_trans hlt (hs2.1 r hr')))
        have h1 := h pk
        rw [hnone] at h1
        simp [mapGet] at h1
      · by_cases hgt : strLt qk pk = true
        · exfalso
          have hnone : mapGet qk ((pk, pv) :: t1) = none := by
            rw [mapGet_eq_none]
            intro r hr
            rcases List.mem_cons.mp hr with rfl | hr'
            · exact Ne.symm (strLt_ne hgt)
            · exact Ne.symm (strLt_ne (strLt_trans hgt (hs1.1 r hr')))
          have h1 := h qk
          rw [hnone] at h1
          simp [mapGet] at h1
        · have heq : pk = qk :=
            strLt_eq_of_not_lt (bool_eq_false hlt) (bool_eq_false hgt)
          subst heq
          have hv : pv = qv := by
            have h1 := h pk
            simpa [mapGet] using h1
          subst hv
          have htails : t1 = t2 := by
            apply ih t2 hs1.2 hs2.2
            intro k
            by_cases hk : k = pk
            · subst hk
              have hn1 : mapGet k t1 = none := by
                rw [mapGet_eq_none]
                intro r hr
                exact Ne.symm (strLt_ne (hs1.1 r hr))
              have hn2 : mapGet k t2 = none := by
                rw [mapGet_eq_none]
                intro r hr
                exact Ne.symm (strLt_ne (hs2.1 r hr))
              rw [hn1, hn2]
            · have hpk : (pk == k) = false := by
                rw [beq_eq_false_iff_ne]
                exact fun hh => hk hh.symm
              have h1 := h k
              simpa [mapGet, hpk] using h1
          rw [htails]

theorem is_stub_normalize_atom (a : AtomWithLines) (nk : String) :
    is_stub (normalize_atom a nk) = is_stub a := rfl

theorem normEntries_cons (key : String) (atom : AtomWithLines)
    (rest : List (String × AtomWithLines)) (nk : String) :
    normEntries ((key, atom) :: rest) nk =
      if normalize_code_name key = nk then
        normalize_atom atom (normalize_code_name key) :: normEntries rest nk
      else normEntries rest nk := by
  by_cases h : normalize_code_name key = nk
  · simp [normEntries, List.filter_cons, h]
  · simp [normEntries, List.filter_cons, h]

theorem mapGet_normalize_aux :
    ∀ (l : List (String × AtomWithLines)) (acc : List (String × AtomWithLines))
      (c : Nat) (nk : String),
      mapGet nk (normalize_atoms_aux l acc c).1 =
        (normEntries l nk).foldl (fun o a => mergeCombine o (some a)) (mapGet nk acc) := by
  intro l
  induction l with
  | nil => intro acc c nk; rfl
  | cons p rest ih =>
    intro acc c nk
    obtain ⟨key, atom⟩ := p
    rw [normEntries_cons]
    simp only [normalize_atoms_aux]
    rcases hacc : mapGet (normalize_code_name key) acc with _ | existing
    · by_cases hk : normalize_code_name key = nk
      · subst hk
        simp [ih, mapGet_mapInsert, hacc, mergeCombine]
      · simp [ih, mapGet_mapInsert, hk, Ne.symm hk]
    · rcases Bool.eq_false_or_eq_true
          (is_stub existing && !is_stub (normalize_atom atom (normalize_code_name key))) with
        hcond | hcond
      · obtain ⟨hc1, hc2⟩ := (Bool.and_eq_true _ _).mp hcond
        have hc2' : is_stub (normalize_atom atom (normalize_code_name key)) = false := by
          rcases Bool.eq_false_or_eq_true
              (is_stub (normalize_atom atom (normalize_code_name key))) with h | h
          · rw [h] at hc2
            exact absurd hc2 (by simp)
          · exact h
        by_cases hk : normalize_code_name key = nk
        · subst hk
          simp [ih, hacc, hcond, hc1, hc2', mapGet_mapInsert, mergeCombine]
        · simp [ih, hacc, hcond, hk, mapGet_mapInsert, Ne.symm hk]
      · have hq : ¬ (is_stub existing = true ∧
            is_stub (normalize_atom atom (normalize_code_name key)) = false) := by
          rintro ⟨u, w⟩
          rw [u, w] at hcond
          exact absurd hcond (by simp)
        by_cases hk : normalize_code_name key = nk
        · subst hk
          simp [ih, hacc, hcond, hq, mergeCombine]
        · simp [ih, hacc, hcond, hk]

theorem foldl_mergeCombine_real {e : AtomWithLines} (he : is_stub e = false) :
    ∀ l : List AtomWithLines,
      l.foldl (fun o a => mergeCombine o (some a)) (some e) = some e := by
  intro l
  induction l with
  | nil => rfl
  | cons a rest ih =>
    simp only [List.foldl_cons]
    have hstep : mergeCombine (some e) (some a) = some e := by
      simp [mergeCombine, he]
    rw [hstep]
    exact ih

theorem foldl_mergeCombine_stub {e : AtomWithLines} (he : is_stub e = true) :
    ∀ l : List AtomWithLines,
      l.foldl (fun o a => mergeCombine o (some a)) (some e) =
        match l.find? (fun a => !is_stub a) with
        | some r => some r
        | none => some e := by
  intro l
  induction l with
  | nil => rfl
  | cons a rest ih =>
    simp only [List.foldl_cons]
    by_cases ha : is_stub a = true
    · have hstep : mergeCombine (some e) (some a) = some e := by
        simp [mergeCombine, ha]
      have hfind : List.find? (fun x => !is_stub x) (a :: rest) =
          List.find? (fun x => !is_stub x) rest := by
        rw [List.find?_cons_of_neg]
        simp [ha]
      rw [hstep, hfind]
      exact ih
    · have ha' : is_stub a = false := bool_eq_false ha
      have hstep : mergeCombine (some e) (some a) = some a := by
        simp [mergeCombine, he, ha']
      have hfind : List.find? (fun x => !is_stub x) (a :: rest) = some a := by
        rw [List.find?_cons_of_pos]
        simp [ha']
      rw [hstep, hfind]
      exact foldl_mergeCombine_real ha' rest

theorem foldl_mergeCombine_none :
    ∀ l : List AtomWithLines,
      l.foldl (fun o a => mergeCombine o (some a)) none = first_real_else_first l := by
  intro l
  cases l with
  | nil => rfl
  | cons a rest =>
    simp only [List.foldl_cons]
    have hstep : mergeCombine none (some a) = some a := rfl
    rw [hstep]
    by_cases ha : is_stub a = true
    · rw [foldl_mergeCombine_stub ha rest]
      have hfind : List.find? (fun x => !is_stub x) (a :: rest) =
          List.find? (fun x => !is_stub x) rest := by
        rw [List.find?_cons_of_neg]
        simp [ha]
      simp only [first_real_else_first, hfind]
      rcases hr : List.find? (fun x => !is_stub x) rest with _ | r
      · simp [List.head?]
      · rfl
    · have ha' : is_stub a = false := bool_eq_false ha
      rw [foldl_mergeCombine_real ha' rest]
      have hfind : List.find? (fun x => !is_stub x) (a :: rest) = some a := by
        rw [List.find?_cons_of_pos]
        simp [ha']
      simp only [first_real_else_first, hfind]

theorem normalize_aux_sorted :
    ∀ (l acc : List (String × AtomWithLines)) (c : Nat),
      mapSorted acc → mapSorted (normalize_atoms_aux l acc c).1 := by
  intro l
  induction l with
  | nil => intro acc c h; exact h
  | cons p rest ih =>
    intro acc c h
    obtain ⟨key, atom⟩ := p
    simp only [normalize_atoms_aux]
    split
    · split
      · exact ih _ _ (mapInsert_sorted _ _ _ h)
      · exact ih _ _ h
    · exact ih _ _ (mapInsert_sorted _ _ _ h)

theorem normalize_map_sorted (m : List (String × AtomWithLines)) :
    mapSorted (normalize_atoms_map m).1 :=
  normalize_aux_sorted m [] 0 List.Pairwise.nil

theorem merge_step_sorted (acc : MergeState) (kv : String × AtomWithLines)
    (h : mapSorted acc.1) : mapSorted (merge_step acc kv).1 := by
  simp only [merge_step]
  split
  · split
    · exact mapInsert_sorted _ _ _ h
    · split
      · exact h
      · exact h
  · exact mapInsert_sorted _ _ _ h

theorem merge_pairs_sorted :
    ∀ (l : List (String × AtomWithLines)) (acc : MergeState),
      mapSorted acc.1 → mapSorted (merge_pairs l acc).1 := by
  intro l
  induction l with
  | nil => intro acc h; exact h
  | cons kv rest ih =>
    intro acc h
    exact ih _ (merge_step_sorted acc kv h)

theorem merge_fold_sorted :
    ∀ (maps : List (List (String × AtomWithLines))) (acc : MergeState),
      mapSorted acc.1 → mapSorted (merge_fold maps acc).1 := by
  intro maps
  induction maps with
  | nil => intro acc h; exact h
  | cons m ms ih =>
    intro acc h
    exact ih _ (merge_pairs_sorted _ _ h)

theorem merge_atoms_maps_sorted (maps : List (List (String × AtomWithLines))) :
    mapSorted (merge_atoms_maps maps).1 := by
  simp only [merge_atoms_maps]
  exact merge_fold_sorted _ _ (normalize_map_sorted _)

theorem mergeCombine_none_right (o : Option AtomWithLines) : mergeCombine o none = o := by
  cases o with
  | none => rfl
  | some e => rfl

theorem mapGet_merge_pairs :
    ∀ (inc : List (String × AtomWithLines)) (acc : MergeState) (k : String),
      mapSorted inc →
      mapGet k (merge_pairs inc acc).1 = mergeCombine (mapGet k acc.1) (mapGet k inc) := by
  intro inc
  induction inc with
  | nil =>
    intro acc k _
    simp only [merge_pairs, mapGet, mergeCombine_none_right]
  | cons p rest ih =>
    intro acc k hs
    obtain ⟨pk, pv⟩ := p
    rw [mapSorted, List.pairwise_cons] at hs
    obtain ⟨hhead, htail⟩ := hs
    simp only [merge_pairs]
    rw [ih _ k htail]
    by_cases hk : k = pk
    · subst hk
      have hrest : mapGet k rest = none := by
        rw [mapGet_eq_none]
        intro q hq
        exact Ne.symm (strLt_ne (hhead q hq))
      have hcons : mapGet k ((k, pv) :: rest) = some pv := by simp [mapGet]
      rw [hrest, hcons, mergeCombine_none_right]
      simp only [merge_step]
      rcases hg : mapGet k acc.1 with _ | e
      · simp [mapGet_mapInsert, mergeCombine]
      · rcases Bool.eq_false_or_eq_true (is_stub e && !is_stub pv) with hc | hc
        · obtain ⟨h1, h2⟩ := (Bool.and_eq_true _ _).mp hc
          have h2' : is_stub pv = false := by
            rcases Bool.eq_false_or_eq_true (is_stub pv) with hx | hx
            · rw [hx] at h2
              exact absurd h2 (by simp)
            · exact hx
          simp [mapGet_mapInsert, mergeCombine, hc, h1, h2']
        · have hq : ¬ (is_stub e = true ∧ is_stub pv = false) := by
            rintro ⟨u, w⟩
            rw [u, w] at hc
            exact absurd hc (by simp)
          rcases Bool.eq_false_or_eq_true (!is_stub e && !is_stub pv) with hc2 | hc2
          · simp [hc, hc2, hg, mergeCombine, hq]
          · simp [hc, hc2, hg, mergeCombine, hq]
    · have hcons : mapGet k ((pk, pv) :: rest) = mapGet k rest := by
        have hne : (pk == k) = false := by
          rw [beq_eq_false_iff_ne]
          exact fun hh => hk hh.symm
        simp [mapGet, hne]
      rw [hcons]
      have hstep : mapGet k (merge_step acc (pk, pv)).1 = mapGet k acc.1 := by
        simp only [merge_step]
        split
        · split
          · rw [mapGet_mapInsert, if_neg hk]
          · split
            · rfl
            · rfl
        · rw [mapGet_mapInsert, if_neg hk]
      rw [hstep]

theorem mapGet_merge_fold :
    ∀ (maps : List (List (String × AtomWithLines))) (acc : MergeState) (k : String),
      mapGet k (merge_fold maps acc).1 =
        maps.foldl (fun b m => mergeCombine b (mapGet k (normalize_atoms_map m).1))
          (mapGet k acc.1) := by
  intro maps
  induction maps with
  | nil => intro acc k; rfl
  | cons m ms ih =>
    intro acc k
    simp only [merge_fold, List.foldl_cons]
    rw [ih]
    rw [mapGet_merge_pairs (normalize_atoms_map m).1 _ k (normalize_map_sorted m)]

theorem mapGet_merge_atoms_maps (maps : List (List (String × AtomWithLines))) (k : String) :
    mapGet k (merge_atoms_maps maps).1 =
      maps.tail.foldl (fun b m => mergeCombine b (mapGet k (normalize_atoms_map m).1))
        (mapGet k (normalize_atoms_map (maps.headD [])).1) := by
  simp only [merge_atoms_maps]
  exact mapGet_merge_fold maps.tail _ k

/-- C1 counterexample: a single map with two real entries under keys "a"
and "a." (both normalizing to "a"); the atom kept in the normalized map is
the one of the earlier key "a" (code_path "pa"), not the later key "a."
(code_path "pb") as the claim states. -/
theorem c1_counterexample :
    normalize_code_name "a." = "a" ∧
    is_stub c1_atomA = false ∧
    is_stub c1_atomB = false ∧
    (normalize_atoms_map c1_map).1 = [("a", normalize_atom c1_atomA "a")] ∧
    mapGet "a" (normalize_atoms_map c1_map).1 ≠ some (normalize_atom c1_atomB "a") := by
  refine ⟨by decide, by decide, by decide, by decide, by decide⟩

theorem mapGet_normalize_map (m : List (String × AtomWithLines)) (nk : String) :
    mapGet nk (normalize_atoms_map m).1 = first_real_else_first (normEntries m nk) := by
  have h := mapGet_normalize_aux m [] 0 nk
  have hnil : mapGet nk ([] : List (String × AtomWithLines)) = none := rfl
  rw [hnil] at h
  rw [normalize_atoms_map, h]
  exact foldl_mergeCombine_none _

/-- C1 (amended): in Phase-1 normalization of a single map, the entry kept
at every normalized key nk is the first real entry, in the map's own
iteration order, among the entries whose key normalizes to nk — or the
first such entry when all of them are stubs.  In particular a real entry
always wins over a stub, and when two colliding entries are both real the
earlier one (not the later) is kept. -/
theorem c1_first_real_wins (m : List (String × AtomWithLines)) (nk : String) :
    mapGet nk (normalize_atoms_map m).1 = first_real_else_first (normEntries m nk) :=
  mapGet_normalize_map m nk

/-- C4 counterexample: two maps each holding only stubs for the key "k"
(so no key is real in either map, satisfying the claim's hypothesis), yet
with different stub payloads; swapping the input order changes the merged
output, so the claim's order-independence fails as stated. -/
theorem c4_counterexample :
    ([("k", c4_stubX)].all (fun p => is_stub p.2)) = true ∧
    ([("k", c4_stubY)].all (fun p => is_stub p.2)) = true ∧
    (merge_atoms_maps [[("k", c4_stubX)], [("k", c4_stubY)]]).1 ≠
      (merge_atoms_maps [[("k", c4_stubY)], [("k", c4_stubX)]]).1 := by
  refine ⟨by decide, by decide, by decide⟩

/-- C4 (amended): merging two maps in either order yields the identical
output map provided that, after Phase-1 normalization, no key is real in
both maps and any key that is a stub in both maps carries the same stub
atom in both. -/
theorem c4_order_independence (m1 m2 : List (String × AtomWithLines))
    (hreal : ∀ k e1 e2, mapGet k (normalize_atoms_map m1).1 = some e1 →
      mapGet k (normalize_atoms_map m2).1 = some e2 →
      is_stub e1 = false → is_stub e2 = false → False)
    (hstub : ∀ k e1 e2, mapGet k (normalize_atoms_map m1).1 = some e1 →
      mapGet k (normalize_atoms_map m2).1 = some e2 →
      is_stub e1 = true → is_stub e2 = true → e1 = e2) :
    (merge_atoms_maps [m1, m2]).1 = (merge_atoms_maps [m2, m1]).1 := by
  apply mapExt _ _ (merge_atoms_maps_sorted _) (merge_atoms_maps_sorted _)
  intro k
  rw [mapGet_merge_atoms_maps, mapGet_merge_atoms_maps]
  simp only [List.tail_cons, List.headD_cons, List.foldl_cons, List.foldl_nil]
  rcases g1 : mapGet k (normalize_atoms_map m1).1 with _ | a1 <;>
    rcases g2 : mapGet k (normalize_atoms_map m2).1 with _ | a2
  · rfl
  · rfl
  · rfl
  · rcases Bool.eq_false_or_eq_true (is_stub a1) with s1 | s1 <;>
      rcases Bool.eq_false_or_eq_true (is_stub a2) with s2 | s2
    · have hab : a1 = a2 := hstub k a1 a2 g1 g2 s1 s2
      subst hab
      rfl
    · simp [mergeCombine, s1, s2]
    · simp [mergeCombine, s1, s2]
    · exact absurd (hreal k a1 a2 g1 g2 s1 s2) (fun h => h)

theorem bnot_eq_true {b : Bool} (h : (!b) = true) : b = false := by
  cases b
  · rfl
  · exact absurd h (by simp)

theorem ffirst_mem {l : List AtomWithLines} {a : AtomWithLines}
    (h : first_real_else_first l = some a) : a ∈ l := by
  simp only [first_real_else_first] at h
  rcases hf : l.find? (fun x => !is_stub x) with _ | r
  · rw [hf] at h
    cases l with
    | nil => exact absurd h (by simp)
    | cons b bs =>
      have hb : b = a := by simpa using h
      rw [← hb]
      exact List.mem_cons_self _ _
  · rw [hf] at h
    have hr : r = a := by simpa using h
    rw [hr] at hf
    exact List.mem_of_find?_eq_some hf

theorem normEntries_code_name {m : List (String × AtomWithLines)} {k : String} :
    ∀ a ∈ normEntries m k, a.code_name = k := by
  intro a ha
  simp only [normEntries, List.mem_map, List.mem_filter] at ha
  obtain ⟨p, ⟨_, hnk⟩, rfl⟩ := ha
  have hk : normalize_code_name p.1 = k := by simpa using hnk
  rw [show (normalize_atom p.2 (normalize_code_name p.1)).code_name =
    normalize_code_name p.1 from rfl, hk]

theorem mergeCombine_source {b i : Option AtomWithLines} {a : AtomWithLines}
    (h : mergeCombine b i = some a) : b = some a ∨ i = some a := by
  rcases b with _ | e <;> rcases i with _ | x
  · simp [mergeCombine] at h
  · exact Or.inr h
  · exact Or.inl h
  · simp only [mergeCombine] at h
    split at h
    · exact Or.inr h
    · exact Or.inl h

theorem foldl_mergeCombine_source (k : String) :
    ∀ (ms : List (List (String × AtomWithLines))) (b0 : Option AtomWithLines)
      (a : AtomWithLines),
      ms.foldl (fun b m => mergeCombine b (mapGet k (normalize_atoms_map m).1)) b0 = some a →
      b0 = some a ∨ ∃ m ∈ ms, mapGet k (normalize_atoms_map m).1 = some a := by
  intro ms
  induction ms with
  | nil => intro b0 a h0; exact Or.inl h0
  | cons m ms ih =>
    intro b0 a h0
    rw [List.foldl_cons] at h0
    rcases ih _ _ h0 with hc | ⟨m', hm', hg⟩
    · rcases mergeCombine_source hc with hb | hi
      · exact Or.inl hb
      · exact Or.inr ⟨m, List.mem_cons_self _ _, hi⟩
    · exact Or.inr ⟨m', List.mem_cons_of_mem _ hm', hg⟩

theorem normalized_code_name {m : List (String × AtomWithLines)} {k : String}
    {a : AtomWithLines} (h : mapGet k (normalize_atoms_map m).1 = some a) :
    a.code_name = k := by
  rw [mapGet_normalize_map] at h
  exact normEntries_code_name a (ffirst_mem h)

theorem merged_code_name {maps : List (List (String × AtomWithLines))} {k : String}
    {a : AtomWithLines} (h : mapGet k (merge_atoms_maps maps).1 = some a) :
    a.code_name = k := by
  rw [mapGet_merge_atoms_maps] at h
  rcases foldl_mergeCombine_source k maps.tail _ a h with hb | ⟨m, _, hg⟩
  · exact normalized_code_name hb
  · exact normalized_code_name hg

theorem optReal_mergeCombine (b i : Option AtomWithLines) :
    optReal (mergeCombine b i) = (optReal b || optReal i) := by
  rcases b with _ | e <;> rcases i with _ | x
  · rfl
  · rfl
  · simp [mergeCombine, optReal]
  · simp only [mergeCombine, optReal]
    rcases Bool.eq_false_or_eq_true (is_stub e) with he | he <;>
      rcases Bool.eq_false_or_eq_true (is_stub x) with hx | hx <;>
      simp [he, hx]

theorem optReal_ffirst (l : List AtomWithLines) :
    optReal (first_real_else_first l) = l.any (fun a => !is_stub a) := by
  simp only [first_real_else_first]
  rcases hf : l.find? (fun x => !is_stub x) with _ | r
  · have hall := List.find?_eq_none.mp hf
    have hany : l.any (fun a => !is_stub a) = false := by
      rcases Bool.eq_false_or_eq_true (l.any fun a => !is_stub a) with h | h
      · obtain ⟨x, hx, hpx⟩ := List.any_eq_true.mp h
        exact absurd hpx (hall x hx)
      · exact h
    rw [hany]
    cases l with
    | nil => rfl
    | cons b bs =>
      have hb : ¬ ((!is_stub b) = true) := hall b (List.mem_cons_self _ _)
      have hb' : (!is_stub b) = false := bool_eq_false hb
      simp [List.head?, optReal, hb']
  · have hr := List.find?_some hf
    have hany : l.any (fun a => !is_stub a) = true :=
      List.any_eq_true.mpr ⟨r, List.mem_of_find?_eq_some hf, hr⟩
    simp [optReal, hr, hany]

theorem optReal_normalized (m : List (String × AtomWithLines)) (k : String) :
    optReal (mapGet k (normalize_atoms_map m).1) = true ↔
      ∃ p ∈ m, normalize_code_name p.1 = k ∧ is_stub p.2 = false := by
  rw [mapGet_normalize_map, optReal_ffirst, List.any_eq_true]
  constructor
  · rintro ⟨a, ha, hpa⟩
    simp only [normEntries, List.mem_map, List.mem_filter] at ha
    obtain ⟨p, ⟨hp, hnk⟩, rfl⟩ := ha
    refine ⟨p, hp, by simpa using hnk, ?_⟩
    have := bnot_eq_true hpa
    rwa [is_stub_normalize_atom] at this
  · rintro ⟨p, hp, hnk, hreal⟩
    refine ⟨normalize_atom p.2 (normalize_code_name p.1), ?_, ?_⟩
    · simp only [normEntries, List.mem_map, List.mem_filter]
      exact ⟨p, ⟨hp, by simpa using hnk⟩, rfl⟩
    · rw [is_stub_normalize_atom, hreal]
      rfl

theorem optReal_foldl (k : String) :
    ∀ (ms : List (List (String × AtomWithLines))) (b0 : Option AtomWithLines),
      optReal (ms.foldl (fun b m => mergeCombine b (mapGet k (normalize_atoms_map m).1)) b0) =
        (optReal b0 || ms.any (fun m => optReal (mapGet k (normalize_atoms_map m).1))) := by
  intro ms
  induction ms with
  | nil => intro b0; simp
  | cons m ms ih =>
    intro b0
    rw [List.foldl_cons, ih, optReal_mergeCombine]
    simp [List.any_cons, Bool.or_assoc]

/-- C5: an atom a in the merge output is a stub exactly when no input map
ever supplied a real (non-stub) entry under a key that normalizes to
a.code_name. -/
theorem c5_stub_iff_no_real (maps : List (List (String × AtomWithLines)))
    (k : String) (a : AtomWithLines)
    (h : mapGet k (merge_atoms_maps maps).1 = some a) :
    is_stub a = true ↔ ¬ suppliedReal maps a.code_name := by
  rcases maps with _ | ⟨m0, rest⟩
  · exact absurd h (by simp [merge_atoms_maps, merge_fold, normalize_atoms_map,
      normalize_atoms_aux, mapGet])
  · have hcn : a.code_name = k := merged_code_name h
    rw [hcn]
    have hchain := mapGet_merge_atoms_maps (m0 :: rest) k
    rw [h] at hchain
    have hopt : (!is_stub a) =
        (optReal (mapGet k (normalize_atoms_map m0).1) ||
          rest.any (fun m => optReal (mapGet k (normalize_atoms_map m).1))) := by
      have h1 : optReal (some a) = optReal ((m0 :: rest).tail.foldl
          (fun b m => mergeCombine b (mapGet k (normalize_atoms_map m).1))
          (mapGet k (normalize_atoms_map ((m0 :: rest).headD [])).1)) :=
        congrArg optReal hchain
      rw [optReal_foldl] at h1
      simp only [List.tail_cons, List.headD_cons] at h1
      exact h1
    constructor
    · intro hstub hsup
      obtain ⟨m, hm, p, hp, hnk, hrp⟩ := hsup
      have hor : (optReal (mapGet k (normalize_atoms_map m0).1) ||
          rest.any (fun m => optReal (mapGet k (normalize_atoms_map m).1))) = true := by
        rcases List.mem_cons.mp hm with rfl | hm'
        · rw [(optReal_normalized m k).mpr ⟨p, hp, hnk, hrp⟩]
          simp
        · have hx := (optReal_normalized m k).mpr ⟨p, hp, hnk, hrp⟩
          have hany : rest.any (fun m => optReal (mapGet k (normalize_atoms_map m).1)) = true :=
            List.any_eq_true.mpr ⟨m, hm', hx⟩
          rw [hany]
          simp
      rw [← hopt, hstub] at hor
      exact absurd hor (by simp)
    · intro hno
      rcases Bool.eq_false_or_eq_true (is_stub a) with hs | hs
      · exact hs
      · exfalso
        have hor : (optReal (mapGet k (normalize_atoms_map m0).1) ||
            rest.any (fun m => optReal (mapGet k (normalize_atoms_map m).1))) = true := by
          rw [← hopt, hs]
          rfl
        rw [Bool.or_eq_true] at hor
        rcases hor with h0 | hany
        · obtain ⟨p, hp, hnk, hrp⟩ := (optReal_normalized m0 k).mp h0
          exact hno ⟨m0, List.mem_cons_self _ _, p, hp, hnk, hrp⟩
        · obtain ⟨m, hm, hx⟩ := List.any_eq_true.mp hany
          obtain ⟨p, hp, hnk, hrp⟩ := (optReal_normalized m k).mp hx
          exact hno ⟨m, List.mem_cons_of_mem _ hm, p, hp, hnk, hrp⟩

theorem c5_witness :
    is_stub (normalize_atom c2w_real "k") = true ↔
      ¬ suppliedReal [[("k", c2w_stub)], [("k", c2w_real)]]
          (normalize_atom c2w_real "k").code_name :=
  c5_stub_iff_no_real [[("k", c2w_stub)], [("k", c2w_real)]] "k"
    (normalize_atom c2w_real "k") (by decide)

theorem merge_step_length (acc : MergeState) (kv : String × AtomWithLines)
    (h : mapSorted acc.1) :
    (merge_step acc kv).1.length + acc.2.1.atoms_added =
      acc.1.length + (merge_step acc kv).2.1.atoms_added := by
  simp only [merge_step]
  split
  · rename_i e heq
    split
    · have hsome : (mapGet kv.1 acc.1).isSome := by rw [heq]; rfl
      rw [length_mapInsert_some kv.1 kv.2 acc.1 h hsome]
    · split
      · rfl
      · rfl
  · rename_i heq
    rw [length_mapInsert_none kv.1 kv.2 acc.1 heq]
    show acc.1.length + 1 + acc.2.1.atoms_added = acc.1.length + (acc.2.1.atoms_added + 1)
    omega

theorem merge_pairs_length :
    ∀ (l : List (String × AtomWithLines)) (acc : MergeState), mapSorted acc.1 →
      (merge_pairs l acc).1.length + acc.2.1.atoms_added =
        acc.1.length + (merge_pairs l acc).2.1.atoms_added := by
  intro l
  induction l with
  | nil => intro acc _; rfl
  | cons kv rest ih =>
    intro acc h
    have h1 := merge_step_length acc kv h
    have h2 := ih (merge_step acc kv) (merge_step_sorted acc kv h)
    simp only [merge_pairs]
    omega

theorem merge_fold_length :
    ∀ (maps : List (List (String × AtomWithLines))) (acc : MergeState), mapSorted acc.1 →
      (merge_fold maps acc).1.length + acc.2.1.atoms_added =
        acc.1.length + (merge_fold maps acc).2.1.atoms_added := by
  intro maps
  induction maps with
  | nil => intro acc _; rfl
  | cons m ms ih =>
    intro acc h
    show (merge_fold ms (merge_pairs (normalize_atoms_map m).1
        (acc.1, { acc.2.1 with
          keys_normalized := acc.2.1.keys_normalized + (normalize_atoms_map m).2 },
          acc.2.2))).1.length + acc.2.1.atoms_added =
      acc.1.length + (merge_fold ms (merge_pairs (normalize_atoms_map m).1
        (acc.1, { acc.2.1 with
          keys_normalized := acc.2.1.keys_normalized + (normalize_atoms_map m).2 },
          acc.2.2))).2.1.atoms_added
    have hp : (merge_pairs (normalize_atoms_map m).1
        (acc.1, { acc.2.1 with
          keys_normalized := acc.2.1.keys_normalized + (normalize_atoms_map m).2 },
          acc.2.2)).1.length + acc.2.1.atoms_added =
        acc.1.length + (merge_pairs (normalize_atoms_map m).1
          (acc.1, { acc.2.1 with
            keys_normalized := acc.2.1.keys_normalized + (normalize_atoms_map m).2 },
            acc.2.2)).2.1.atoms_added :=
      merge_pairs_length (normalize_atoms_map m).1 _ h
    have hf := ih (merge_pairs (normalize_atoms_map m).1
      (acc.1, { acc.2.1 with
        keys_normalized := acc.2.1.keys_normalized + (normalize_atoms_map m).2 },
        acc.2.2)) (merge_pairs_sorted _ _ h)
    omega

/-- C6 counterexample: a base map of two real entries whose keys collide
under normalization ("a" and "a."), merged with one empty map: the output
holds 1 atom, atoms_added is 0, yet the base map m0 holds 2 entries, so
len(merged) differs from len(m0) plus the atoms_added sum. -/
theorem c6_counterexample :
    c1_map.length = 2 ∧
    (merge_atoms_maps [c1_map, []]).2.1.atoms_added = 0 ∧
    (merge_atoms_maps [c1_map, []]).1.length ≠
      c1_map.length + (merge_atoms_maps [c1_map, []]).2.1.atoms_added := by
  refine ⟨rfl, by decide, by decide⟩

/-- C6 (amended): the size of the merged output equals the size of the
Phase-1-normalized base map plus the total atoms_added accumulated over all
fold steps, and in particular the merged map never shrinks below the
normalized base. -/
theorem c6_monotonic_growth (maps : List (List (String × AtomWithLines))) :
    (merge_atoms_maps maps).1.length =
      (normalize_atoms_map (maps.headD [])).1.length +
        (merge_atoms_maps maps).2.1.atoms_added ∧
    (normalize_atoms_map (maps.headD [])).1.length ≤ (merge_atoms_maps maps).1.length := by
  have hf : (merge_fold maps.tail
      ((normalize_atoms_map (maps.headD [])).1,
        { initStats with keys_normalized := (normalize_atoms_map (maps.headD [])).2 },
        [])).1.length + 0 =
      (normalize_atoms_map (maps.headD [])).1.length +
        (merge_fold maps.tail
          ((normalize_atoms_map (maps.headD [])).1,
            { initStats with keys_normalized := (normalize_atoms_map (maps.headD [])).2 },
            [])).2.1.atoms_added :=
    merge_fold_length maps.tail _ (normalize_map_sorted _)
  constructor
  · show (merge_fold maps.tail
        ((normalize_atoms_map (maps.headD [])).1,
          { initStats with keys_normalized := (normalize_atoms_map (maps.headD [])).2 },
          [])).1.length =
      (normalize_atoms_map (maps.headD [])).1.length +
        (merge_fold maps.tail
          ((normalize_atoms_map (maps.headD [])).1,
            { initStats with keys_normalized := (normalize_atoms_map (maps.headD [])).2 },
            [])).2.1.atoms_added
    omega
  · show (normalize_atoms_map (maps.headD [])).1.length ≤
      (merge_fold maps.tail
        ((normalize_atoms_map (maps.headD [])).1,
          { initStats with keys_normalized := (normalize_atoms_map (maps.headD [])).2 },
          [])).1.length
    omega

theorem c4_witness :
    (merge_atoms_maps [[("k", c2w_real)], []]).1 =
      (merge_atoms_maps [[], [("k", c2w_real)]]).1 := by
  apply c4_order_independence
  · intro k e1 e2 h1 h2 _ _
    simp [normalize_atoms_map, normalize_atoms_aux, mapGet] at h2
  · intro k e1 e2 h1 h2 _ _
    simp [normalize_atoms_map, normalize_atoms_aux, mapGet] at h2
